import Mathlib

/-!
Verification of the conditions engine and its Django binding layer
(`conditions/fields.py`, `conditions/widgets.py`).  The core engine
(registry, codec, evaluator) is modelled from the specification where its
source is not available; the binding layer is embedded from the source.
-/

set_option maxHeartbeats 1000000

namespace Conditions

/-- JSON values: the generic parse result that the codec and the binding
layer operate on. -/
inductive Json where
  | null : Json
  | bool : Bool → Json
  | num : Int → Json
  | str : String → Json
  | arr : List Json → Json
  | obj : List (String × Json) → Json

/-- Association lookup in a JSON object's field list (first match wins). -/
def lookupField : List (String × Json) → String → Option Json
  | [], _ => none
  | (k, v) :: rest, key => if k = key then some v else lookupField rest key

/-- Modelled from the spec: the compare refinement of a condition kind
(`CompareCondition` in `conditions.py`, not under `src/`): an ordered list
of operator tokens and an example operand. -/
structure CompareInfo where
  operators : List String
  operand_example : String

/-- Modelled from the spec: a condition-kind descriptor (`conditions.py`
is not under `src/`): key requirements, presentation strings, and the
optional compare refinement. -/
structure ConditionKind where
  key_required : Bool
  keys_allowed : List String
  key_example : String
  help_text : String
  full_description : String
  compare : Option CompareInfo

/-- Modelled from the spec: the registry is a host-supplied mapping from
group name to condition identifier (`condstr`) to condition kind. -/
abbrev Registry := List (String × List (String × ConditionKind))

/-- Lookup of a condstr inside one group's mapping. -/
def lookupKind : List (String × ConditionKind) → String → Option ConditionKind
  | [], _ => none
  | (c, k) :: rest, condstr =>
    if c = condstr then some k else lookupKind rest condstr

/-- Modelled from the spec: a leaf's kind is resolved by `condstr` alone
across the groups of the registry (first group containing it wins). -/
def lookupCond : Registry → String → Option ConditionKind
  | [], _ => none
  | (_, group) :: rest, condstr =>
    match lookupKind group condstr with
    | some k => some k
    | none => lookupCond rest condstr

/-- Boolean connective of a group node. -/
inductive BoolOp where
  | and : BoolOp
  | or : BoolOp

/-- Modelled from the spec: the expression tree — a leaf predicate
instance or a boolean group of sub-expressions. -/
inductive TreeNode where
  | leaf (condstr : String) (key : Option String) (operator : Option String)
      (operand : Option Json)
  | group (op : BoolOp) (children : List TreeNode)

/-- Modelled from the spec: a `CondList` owns exactly one root node. -/
structure CondList where
  root : TreeNode

/-- Modelled from the spec: the single domain error kind, carrying a
human-readable diagnostic string (`exceptions.py` is not under `src/`). -/
structure InvalidConditionError where
  msg : String

/-- Effectful map over a list in the `Except` monad, failing at the first
failing element. -/
def exceptMap {ε α β : Type} (f : α → Except ε β) : List α → Except ε (List β)
  | [] => .ok []
  | x :: rest =>
    match f x with
    | .error e => .error e
    | .ok y =>
      match exceptMap f rest with
      | .error e => .error e
      | .ok ys => .ok (y :: ys)

/-- Modelled from the spec: the group-node `op` discriminator is among
AND and OR. -/
def parseOp : Json → Option BoolOp
  | .str s =>
    if s = "and" || s = "AND" then some .and
    else if s = "or" || s = "OR" then some .or
    else none
  | _ => none

/-- Modelled from the spec: a group node carries its sub-expressions in a
`conditions` (or `children`) field. -/
def childrenField (fields : List (String × Json)) : Option Json :=
  match lookupField fields "conditions" with
  | some v => some v
  | none => lookupField fields "children"

/-- A leaf field that, when present, must be a JSON string. -/
def readStrField (fields : List (String × Json)) (name : String) :
    Except InvalidConditionError (Option String) :=
  match lookupField fields name with
  | none => .ok none
  | some (.str s) => .ok (some s)
  | some _ => .error ⟨"field " ++ name ++ " must be a string"⟩

/-- Modelled from the spec: structural validation of a leaf against its
resolved kind (invariants 2-4): key presence and allowed keys, operator
and operand presence for compare kinds, their absence otherwise. -/
def validateLeaf (reg : Registry) (condstr : String) (key operator : Option String)
    (operand : Option Json) : Except InvalidConditionError TreeNode :=
  match lookupCond reg condstr with
  | none => .error ⟨"unknown condition: " ++ condstr⟩
  | some kind =>
    if kind.key_required && key.isNone then
      .error ⟨"missing key for condition: " ++ condstr⟩
    else if !kind.keys_allowed.isEmpty &&
        !(match key with
          | some k => kind.keys_allowed.contains k
          | none => false) then
      .error ⟨"key not allowed for condition: " ++ condstr⟩
    else
      match kind.compare with
      | some ci =>
        match operator with
        | none => .error ⟨"missing operator for condition: " ++ condstr⟩
        | some t =>
          if ci.operators.contains t then
            match operand with
            | none => .error ⟨"missing operand for condition: " ++ condstr⟩
            | some _ => .ok (.leaf condstr key operator operand)
          else .error ⟨"invalid operator for condition: " ++ condstr⟩
      | none =>
        match operator, operand with
        | none, none => .ok (.leaf condstr key none none)
        | _, _ =>
          .error ⟨"condition carries operator or operand: " ++ condstr⟩

/-- Modelled from the spec: recursive classification and validation of a
JSON value into a tree node.  The fuel argument bounds the recursion
depth; the wrapper `CondList.decode` supplies a sufficient bound. -/
def decodeNodeF (reg : Registry) : Nat → Json → Except InvalidConditionError TreeNode
  | 0, _ => .error ⟨"nesting too deep"⟩
  | n + 1, .obj fields =>
    match lookupField fields "op" with
    | some opJson =>
      match parseOp opJson with
      | some op =>
        match childrenField fields with
        | some (.arr xs) =>
          match xs with
          | [] => .error ⟨"empty group"⟩
          | _ :: _ =>
            (exceptMap (fun x => decodeNodeF reg n x) xs).map (.group op ·)
        | _ => .error ⟨"group carries no conditions"⟩
      | none => .error ⟨"invalid group operator"⟩
    | none =>
      match lookupField fields "condition" with
      | some (.str condstr) =>
        match readStrField fields "key" with
        | .error e => .error e
        | .ok key =>
          match readStrField fields "operator" with
          | .error e => .error e
          | .ok operator =>
            validateLeaf reg condstr key operator (lookupField fields "value")
      | _ => .error ⟨"not a condition"⟩
  | _ + 1, _ => .error ⟨"not a condition or group"⟩

mutual
/-- Total number of constructors of a JSON value; bounds the nesting
depth. -/
def Json.size : Json → Nat
  | .null => 1
  | .bool _ => 1
  | .num _ => 1
  | .str _ => 1
  | .arr xs => 1 + Json.sizeList xs
  | .obj fields => 1 + Json.sizeFields fields
termination_by structural j => j

/-- Sum of sizes of the elements of a JSON array. -/
def Json.sizeList : List Json → Nat
  | [] => 0
  | x :: rest => Json.size x + Json.sizeList rest
termination_by structural l => l

/-- Sum of sizes of the values of a JSON object. -/
def Json.sizeFields : List (String × Json) → Nat
  | [] => 0
  | (_, v) :: rest => Json.size v + Json.sizeFields rest
termination_by structural l => l
end

/-- Modelled from the spec: `decode(value, registry) -> CondList |
InvalidConditionError` — all-or-nothing classification and validation of
a parsed JSON value.  `Json.size` bounds the nesting depth, so it is
always a sufficient fuel. -/
def CondList.decode (reg : Registry) (j : Json) : Except InvalidConditionError CondList :=
  (decodeNodeF reg (Json.size j) j).map CondList.mk

/-- String written by `encode` for a group operator. -/
def BoolOp.toStr : BoolOp → String
  | .and => "and"
  | .or => "or"

/-- An optional field of the canonical encoding: absent options produce
no field at all. -/
def optField (name : String) : Option Json → List (String × Json)
  | none => []
  | some v => [(name, v)]

mutual
/-- Modelled from the spec: canonical encoding of a tree node — leaf
fields `condition`/`key`/`operator`/`value`, group fields
`op`/`conditions`. -/
def encodeNode : TreeNode → Json
  | .leaf condstr key operator operand =>
    .obj (("condition", .str condstr) ::
      (optField "key" (key.map .str) ++ optField "operator" (operator.map .str) ++
        optField "value" operand))
  | .group op children =>
    .obj [("op", .str op.toStr), ("conditions", .arr (encodeList children))]
termination_by structural t => t

/-- Canonical encoding of a list of children, in order. -/
def encodeList : List TreeNode → List Json
  | [] => []
  | t :: ts => encodeNode t :: encodeList ts
termination_by structural ts => ts
end

/-- Modelled from the spec: `encode` of a `CondList` encodes its root. -/
def CondList.encode (c : CondList) : Json :=
  encodeNode c.root

mutual
/-- Height of a tree node: the recursion depth the decoder needs for it. -/
def heightT : TreeNode → Nat
  | .leaf _ _ _ _ => 1
  | .group _ children => 1 + heightList children
termination_by structural t => t

/-- Maximum height over a list of nodes. -/
def heightList : List TreeNode → Nat
  | [] => 0
  | t :: ts => max (heightT t) (heightList ts)
termination_by structural ts => ts
end

/-- Modelled from the spec: the invariants every decoded tree satisfies —
known condstr, key presence and allowed keys, operator and operand present
exactly for compare kinds, non-empty groups. -/
inductive Valid (reg : Registry) : TreeNode → Prop where
  | leaf {condstr : String} {key operator : Option String} {operand : Option Json}
      {kind : ConditionKind} :
      lookupCond reg condstr = some kind →
      (kind.key_required = true → key.isSome = true) →
      (kind.keys_allowed ≠ [] → ∃ k, key = some k ∧ k ∈ kind.keys_allowed) →
      (∀ ci, kind.compare = some ci →
        ∃ tok, operator = some tok ∧ tok ∈ ci.operators ∧ operand.isSome = true) →
      (kind.compare = none → operator = none ∧ operand = none) →
      Valid reg (.leaf condstr key operator operand)
  | group {op : BoolOp} {children : List TreeNode} :
      children ≠ [] →
      (∀ c ∈ children, Valid reg c) →
      Valid reg (.group op children)

theorem exceptMap_cons_ok {ε α β : Type} {f : α → Except ε β} {x : α} {rest : List α}
    {ys : List β} (h : exceptMap f (x :: rest) = .ok ys) :
    ∃ y ys', f x = .ok y ∧ exceptMap f rest = .ok ys' ∧ ys = y :: ys' := by
  cases hfx : f x with
  | error e => simp [exceptMap, hfx] at h
  | ok y =>
    cases hrest : exceptMap f rest with
    | error e => simp [exceptMap, hfx, hrest] at h
    | ok ys' =>
      simp only [exceptMap, hfx, hrest, Except.ok.injEq] at h
      exact ⟨y, ys', rfl, rfl, h.symm⟩

theorem exceptMap_ok_forall {ε α β : Type} {f : α → Except ε β} :
    ∀ {xs : List α} {ys : List β}, exceptMap f xs = .ok ys →
      ∀ y ∈ ys, ∃ x ∈ xs, f x = .ok y := by
  intro xs
  induction xs with
  | nil =>
    intro ys h y hy
    simp [exceptMap] at h
    subst h
    simp at hy
  | cons x rest ih =>
    intro ys h y hy
    obtain ⟨y₀, ys', hfx, hrest, rfl⟩ := exceptMap_cons_ok h
    rcases List.mem_cons.mp hy with rfl | hy'
    · exact ⟨x, List.mem_cons_self _ _, hfx⟩
    · obtain ⟨x', hx', hfx'⟩ := ih hrest y hy'
      exact ⟨x', List.mem_cons_of_mem _ hx', hfx'⟩

theorem validateLeaf_valid {reg : Registry} {condstr : String}
    {key operator : Option String} {operand : Option Json} {t : TreeNode}
    (h : validateLeaf reg condstr key operator operand = .ok t) : Valid reg t := by
  unfold validateLeaf at h
  split at h
  · simp at h
  next kind hlk =>
    split at h
    · simp at h
    next h1 =>
      split at h
      · simp at h
      next h2 =>
        have hkeyreq : kind.key_required = true → key.isSome = true := by
          intro hr
          cases key with
          | none => simp [hr] at h1
          | some k => rfl
        have hkeys : kind.keys_allowed ≠ [] → ∃ k, key = some k ∧ k ∈ kind.keys_allowed := by
          intro hne
          cases key with
          | none =>
            exfalso
            apply h2
            simp [List.isEmpty_iff, hne]
          | some k =>
            refine ⟨k, rfl, ?_⟩
            by_contra hmem
            apply h2
            simp [List.isEmpty_iff, hne]
            intro hc
            exact hmem hc
        split at h
        next ci hcmp =>
          split at h
          · simp at h
          next tok =>
            split at h
            next h3 =>
              split at h
              · simp at h
              next v =>
                have ht : TreeNode.leaf condstr key (some tok) (some v) = t := by
                  simpa using h
                subst ht
                exact Valid.leaf hlk hkeyreq hkeys
                  (fun ci' hci' => by
                    rw [hcmp] at hci'
                    cases hci'
                    exact ⟨tok, rfl, List.mem_of_elem_eq_true h3, rfl⟩)
                  (fun hnone => by rw [hcmp] at hnone; cases hnone)
            · simp at h
        next hcmp =>
          split at h
          next =>
            have ht : TreeNode.leaf condstr key none none = t := by simpa using h
            subst ht
            exact Valid.leaf hlk hkeyreq hkeys
              (fun ci' hci' => by rw [hcmp] at hci'; cases hci')
              (fun _ => ⟨rfl, rfl⟩)
          next => simp at h

theorem decodeNodeF_valid {reg : Registry} :
    ∀ (n : Nat) (j : Json) (t : TreeNode), decodeNodeF reg n j = .ok t → Valid reg t := by
  intro n
  induction n with
  | zero => intro j t h; simp [decodeNodeF] at h
  | succ n ih =>
    intro j t h
    cases j with
    | obj fields =>
      rw [decodeNodeF] at h
      split at h
      next opJson hop =>
        split at h
        next op hparse =>
          split at h
          next xs hch =>
            split at h
            · simp at h
            next x rest =>
              cases hmap : exceptMap (fun x => decodeNodeF reg n x) (x :: rest) with
              | error e => rw [hmap] at h; simp [Except.map] at h
              | ok cs =>
                rw [hmap] at h
                simp only [Except.map, Except.ok.injEq] at h
                subst h
                refine Valid.group ?_ ?_
                · obtain ⟨y, ys', _, _, rfl⟩ := exceptMap_cons_ok hmap
                  simp
                · intro c hc
                  obtain ⟨x', hx', hfx'⟩ := exceptMap_ok_forall hmap c hc
                  exact ih x' c hfx'
          next => simp at h
        next => simp at h
      next hop =>
        split at h
        next condstr hcond =>
          split at h
          · simp at h
          next key hk =>
            split at h
            · simp at h
            next operator hoprd =>
              exact validateLeaf_valid h
        next => simp at h
    | null => simp [decodeNodeF] at h
    | bool b => simp [decodeNodeF] at h
    | num m => simp [decodeNodeF] at h
    | str s => simp [decodeNodeF] at h
    | arr xs => simp [decodeNodeF] at h

theorem validateLeaf_ok {reg : Registry} {condstr : String}
    {key operator : Option String} {operand : Option Json} {kind : ConditionKind}
    (hlk : lookupCond reg condstr = some kind)
    (hkeyreq : kind.key_required = true → key.isSome = true)
    (hkeys : kind.keys_allowed ≠ [] → ∃ k, key = some k ∧ k ∈ kind.keys_allowed)
    (hcmp : ∀ ci, kind.compare = some ci →
      ∃ tok, operator = some tok ∧ tok ∈ ci.operators ∧ operand.isSome = true)
    (hnc : kind.compare = none → operator = none ∧ operand = none) :
    validateLeaf reg condstr key operator operand =
      .ok (.leaf condstr key operator operand) := by
  cases hcq : kind.compare with
  | some ci =>
    obtain ⟨tok, hop, hmem, hvp⟩ := hcmp ci hcq
    subst hop
    cases operand with
    | none => simp at hvp
    | some v =>
      have hc : ci.operators.contains tok = true := List.elem_iff.mpr hmem
      cases key with
      | none =>
        have hkr : kind.key_required = false := by
          cases h : kind.key_required with
          | false => rfl
          | true => have := hkeyreq h; simp at this
        have hka : kind.keys_allowed = [] := by
          by_contra hka
          obtain ⟨k, hk, _⟩ := hkeys hka
          cases hk
        unfold validateLeaf
        simp [hlk, hkr, hka, hcq, hc, hmem]
      | some k =>
        by_cases hka : kind.keys_allowed = []
        · unfold validateLeaf
          simp [hlk, hka, hcq, hc, hmem]
        · obtain ⟨k', hk', hmem'⟩ := hkeys hka
          obtain rfl : k = k' := by injection hk'
          have hck : kind.keys_allowed.contains k = true := List.elem_iff.mpr hmem'
          unfold validateLeaf
          simp [hlk, hck, hmem', hcq, hc, hmem]
  | none =>
    obtain ⟨hop, hv⟩ := hnc hcq
    subst hop
    subst hv
    cases key with
    | none =>
      have hkr : kind.key_required = false := by
        cases h : kind.key_required with
        | false => rfl
        | true => have := hkeyreq h; simp at this
      have hka : kind.keys_allowed = [] := by
        by_contra hka
        obtain ⟨k, hk, _⟩ := hkeys hka
        cases hk
      unfold validateLeaf
      simp [hlk, hkr, hka, hcq]
    | some k =>
      by_cases hka : kind.keys_allowed = []
      · unfold validateLeaf
        simp [hlk, hka, hcq]
      · obtain ⟨k', hk', hmem'⟩ := hkeys hka
        obtain rfl : k = k' := by injection hk'
        have hck : kind.keys_allowed.contains k = true := List.elem_iff.mpr hmem'
        unfold validateLeaf
        simp [hlk, hck, hmem', hcq]

theorem parseOp_toStr (op : BoolOp) : parseOp (.str op.toStr) = some op := by
  cases op <;> rfl

theorem heightT_le_heightList {c : TreeNode} :
    ∀ {cs : List TreeNode}, c ∈ cs → heightT c ≤ heightList cs := by
  intro cs
  induction cs with
  | nil => intro h; cases h
  | cons t ts ih =>
    intro h
    rcases List.mem_cons.mp h with rfl | h'
    · rw [heightList]; exact Nat.le_max_left _ _
    · rw [heightList]; exact Nat.le_trans (ih h') (Nat.le_max_right _ _)

theorem exceptMap_encodeList {reg : Registry} {m : Nat} {cs : List TreeNode}
    (ih : ∀ c ∈ cs, decodeNodeF reg m (encodeNode c) = .ok c) :
    exceptMap (fun x => decodeNodeF reg m x) (encodeList cs) = .ok cs := by
  induction cs with
  | nil => rfl
  | cons c cs' ihl =>
    rw [encodeList, exceptMap, ih c (List.mem_cons_self _ _),
      ihl (fun c' hc' => ih c' (List.mem_cons_of_mem _ hc'))]

theorem encode_decodeF {reg : Registry} {t : TreeNode} (hv : Valid reg t) :
    ∀ n, heightT t ≤ n → decodeNodeF reg n (encodeNode t) = .ok t := by
  induction hv with
  | @leaf condstr key operator operand kind hlk hkeyreq hkeys hcmp hnc =>
    intro n hn
    obtain ⟨m, rfl⟩ : ∃ m, n = m + 1 := by
      cases n with
      | zero => rw [heightT] at hn; omega
      | succ m => exact ⟨m, rfl⟩
    rw [encodeNode, decodeNodeF]
    have hop : lookupField
        (("condition", Json.str condstr) ::
          (optField "key" (key.map .str) ++ optField "operator" (operator.map .str) ++
            optField "value" operand)) "op" = none := by
      cases key <;> cases operator <;> cases operand <;> simp [lookupField, optField]
    have hcond : lookupField
        (("condition", Json.str condstr) ::
          (optField "key" (key.map .str) ++ optField "operator" (operator.map .str) ++
            optField "value" operand)) "condition" = some (.str condstr) := by
      simp [lookupField]
    have hkeyf : readStrField
        (("condition", Json.str condstr) ::
          (optField "key" (key.map .str) ++ optField "operator" (operator.map .str) ++
            optField "value" operand)) "key" = .ok key := by
      cases key <;> cases operator <;> cases operand <;>
        simp [readStrField, lookupField, optField]
    have hopf : readStrField
        (("condition", Json.str condstr) ::
          (optField "key" (key.map .str) ++ optField "operator" (operator.map .str) ++
            optField "value" operand)) "operator" = .ok operator := by
      cases key <;> cases operator <;> cases operand <;>
        simp [readStrField, lookupField, optField]
    have hvalf : lookupField
        (("condition", Json.str condstr) ::
          (optField "key" (key.map .str) ++ optField "operator" (operator.map .str) ++
            optField "value" operand)) "value" = operand := by
      cases key <;> cases operator <;> cases operand <;> simp [lookupField, optField]
    rw [hop, hcond, hkeyf, hopf, hvalf]
    exact validateLeaf_ok hlk hkeyreq hkeys hcmp hnc
  | @group op children hne hch ih =>
    intro n hn
    obtain ⟨m, rfl⟩ : ∃ m, n = m + 1 := by
      cases n with
      | zero => rw [heightT] at hn; omega
      | succ m => exact ⟨m, rfl⟩
    rw [encodeNode, decodeNodeF]
    have hm : heightList children ≤ m := by
      rw [heightT] at hn; omega
    have hmap : exceptMap (fun x => decodeNodeF reg m x) (encodeList children) =
        .ok children :=
      exceptMap_encodeList (fun c hc =>
        ih c hc m (Nat.le_trans (heightT_le_heightList hc) hm))
    have hlop : lookupField [("op", Json.str op.toStr),
        ("conditions", Json.arr (encodeList children))] "op" = some (.str op.toStr) := by
      simp [lookupField]
    have hlch : childrenField [("op", Json.str op.toStr),
        ("conditions", Json.arr (encodeList children))] =
        some (.arr (encodeList children)) := by
      simp [childrenField, lookupField]
    simp only [hlop, parseOp_toStr, hlch]
    cases children with
    | nil => exact absurd rfl hne
    | cons c cs =>
      rw [encodeList] at hmap ⊢
      simp only [hmap]
      rfl

mutual
theorem heightT_le_size : ∀ (t : TreeNode), heightT t ≤ Json.size (encodeNode t)
  | .leaf c k o v => by
    rw [heightT, encodeNode, Json.size]
    omega
  | .group op cs => by
    rw [heightT, encodeNode, Json.size]
    have h := heightList_le_sizeList cs
    simp only [Json.sizeFields, Json.size, Json.sizeList]
    omega
termination_by structural t => t

theorem heightList_le_sizeList : ∀ (ts : List TreeNode),
    heightList ts ≤ Json.sizeList (encodeList ts)
  | [] => by rw [heightList, encodeList, Json.sizeList]
  | t :: ts => by
    rw [heightList, encodeList, Json.sizeList]
    have h1 := heightT_le_size t
    have h2 := heightList_le_sizeList ts
    exact Nat.max_le.mpr ⟨by omega, by omega⟩
termination_by structural ts => ts
end

/-- A sample registry used by witnesses: group `basic` with a simple kind
and group `cmp` with a compare kind. -/
def sampleReg : Registry :=
  [("basic", [("always_true", ⟨false, [], "", "", "", none⟩)]),
   ("cmp", [("age", ⟨false, [], "", "", "", some ⟨["eq", "gt"], "18"⟩⟩)])]

/-- A sample stored JSON value decodable against `sampleReg`. -/
def sampleJson : Json :=
  .obj [("op", .str "or"),
        ("conditions",
          .arr [.obj [("condition", .str "always_true")],
                .obj [("condition", .str "age"), ("operator", .str "gt"),
                      ("value", .num 18)]])]

/-- The tree `sampleJson` decodes to. -/
def sampleTree : CondList :=
  ⟨.group .or [.leaf "always_true" none none none,
               .leaf "age" none (some "gt") (some (.num 18))]⟩

/-- C1: for every tree `t` produced by a successful decode against a
registry, `decode(encode(t), registry)` succeeds and yields a tree
structurally equal to `t` (the round-trip law the binding layer relies on
when it encodes on store and re-decodes on load). -/
theorem decode_encode_roundtrip (reg : Registry) (j : Json) (t : CondList)
    (h : CondList.decode reg j = .ok t) :
    CondList.decode reg (CondList.encode t) = .ok t := by
  obtain ⟨root⟩ := t
  unfold CondList.decode at h ⊢
  cases hd : decodeNodeF reg (Json.size j) j with
  | error e => rw [hd] at h; simp [Except.map] at h
  | ok tn =>
    rw [hd] at h
    simp only [Except.map, Except.ok.injEq, CondList.mk.injEq] at h
    subst h
    have hv : Valid reg tn := decodeNodeF_valid _ _ _ hd
    rw [CondList.encode]
    rw [encode_decodeF hv _ (heightT_le_size tn)]
    rfl

/-- Witness for C1: the round-trip law applied to a concrete registry,
input and decoded tree. -/
theorem decode_encode_roundtrip_witness :
    CondList.decode sampleReg (CondList.encode sampleTree) = .ok sampleTree :=
  decode_encode_roundtrip sampleReg sampleJson sampleTree (by rfl)

/-- Modelled from the spec: the data of one leaf predicate invocation, as
recorded by the instrumented evaluator. -/
structure LeafRecord where
  condstr : String
  key : Option String
  operator : Option String
  operand : Option Json

mutual
/-- Modelled from the spec: single-pass recursive evaluation
(`evaluate(tree, context) -> bool`), instrumented with the ordered list
of leaf-predicate invocations it performs.  `pred` is the host-supplied
predicate of a leaf, applied to the runtime context. -/
def evalNode {Ctx : Type} (pred : LeafRecord → Ctx → Bool) :
    TreeNode → Ctx → Bool × List LeafRecord
  | .leaf c k o v, ctx => (pred ⟨c, k, o, v⟩ ctx, [⟨c, k, o, v⟩])
  | .group op children, ctx => evalChildren pred op children ctx
termination_by structural t _ => t

/-- Modelled from the spec: evaluation of a group's children in declared
order, short-circuiting at the first false child (AND) or the first true
child (OR). -/
def evalChildren {Ctx : Type} (pred : LeafRecord → Ctx → Bool) :
    BoolOp → List TreeNode → Ctx → Bool × List LeafRecord
  | .and, [], _ => (true, [])
  | .or, [], _ => (false, [])
  | .and, c :: rest, ctx =>
    match evalNode pred c ctx with
    | (false, tr) => (false, tr)
    | (true, tr) =>
      match evalChildren pred .and rest ctx with
      | (b, tr2) => (b, tr ++ tr2)
  | .or, c :: rest, ctx =>
    match evalNode pred c ctx with
    | (true, tr) => (true, tr)
    | (false, tr) =>
      match evalChildren pred .or rest ctx with
      | (b, tr2) => (b, tr ++ tr2)
termination_by structural _ ts _ => ts
end

/-- The boolean result of evaluation. -/
def evaluate {Ctx : Type} (pred : LeafRecord → Ctx → Bool) (t : TreeNode)
    (ctx : Ctx) : Bool :=
  (evalNode pred t ctx).1

/-- The ordered list of leaf-predicate invocations evaluation performs. -/
def evalTrace {Ctx : Type} (pred : LeafRecord → Ctx → Bool) (t : TreeNode)
    (ctx : Ctx) : List LeafRecord :=
  (evalNode pred t ctx).2

theorem evalChildren_and_true_iff {Ctx : Type} {pred : LeafRecord → Ctx → Bool}
    {ctx : Ctx} : ∀ {cs : List TreeNode},
    (evalChildren pred .and cs ctx).1 = true ↔ ∀ c ∈ cs, (evalNode pred c ctx).1 = true := by
  intro cs
  induction cs with
  | nil => simp [evalChildren]
  | cons c rest ih =>
    rw [evalChildren]
    cases hc : evalNode pred c ctx with
    | mk b tr =>
      cases b with
      | false =>
        simp only []
        constructor
        · intro hfalse; cases hfalse
        · intro hall
          have := hall c (List.mem_cons_self _ _)
          rw [hc] at this
          cases this
      | true =>
        cases hrest : evalChildren pred .and rest ctx with
        | mk b2 tr2 =>
          simp only []
          rw [hrest] at ih
          constructor
          · intro hb2 c' hc'
            rcases List.mem_cons.mp hc' with rfl | h'
            · rw [hc]
            · exact ih.mp hb2 c' h'
          · intro hall
            exact ih.mpr (fun c' h' => hall c' (List.mem_cons_of_mem _ h'))

theorem evalChildren_or_false_iff {Ctx : Type} {pred : LeafRecord → Ctx → Bool}
    {ctx : Ctx} : ∀ {cs : List TreeNode},
    (evalChildren pred .or cs ctx).1 = false ↔ ∀ c ∈ cs, (evalNode pred c ctx).1 = false := by
  intro cs
  induction cs with
  | nil => simp [evalChildren]
  | cons c rest ih =>
    rw [evalChildren]
    cases hc : evalNode pred c ctx with
    | mk b tr =>
      cases b with
      | true =>
        simp only []
        constructor
        · intro htrue; cases htrue
        · intro hall
          have := hall c (List.mem_cons_self _ _)
          rw [hc] at this
          cases this
      | false =>
        cases hrest : evalChildren pred .or rest ctx with
        | mk b2 tr2 =>
          simp only []
          rw [hrest] at ih
          constructor
          · intro hb2 c' hc'
            rcases List.mem_cons.mp hc' with rfl | h'
            · rw [hc]
            · exact ih.mp hb2 c' h'
          · intro hall
            exact ih.mpr (fun c' h' => hall c' (List.mem_cons_of_mem _ h'))

/-- C7: evaluation of a group short-circuits in declared child order —
an AND group stops and returns false at the first child evaluating false
(the trace shows no later child, such as any X after it, is evaluated)
and returns true exactly when all children are true; an OR group stops
and returns true at the first child evaluating true and returns false
exactly when all children are false. -/
theorem evaluate_short_circuit {Ctx : Type} (pred : LeafRecord → Ctx → Bool)
    (ctx : Ctx) :
    (∀ (c : TreeNode) (rest : List TreeNode), evaluate pred c ctx = false →
      evalNode pred (.group .and (c :: rest)) ctx = (false, evalTrace pred c ctx)) ∧
    (∀ (cs : List TreeNode),
      (evaluate pred (.group .and cs) ctx = true ↔ ∀ c ∈ cs, evaluate pred c ctx = true)) ∧
    (∀ (c : TreeNode) (rest : List TreeNode), evaluate pred c ctx = true →
      evalNode pred (.group .or (c :: rest)) ctx = (true, evalTrace pred c ctx)) ∧
    (∀ (cs : List TreeNode),
      (evaluate pred (.group .or cs) ctx = false ↔ ∀ c ∈ cs, evaluate pred c ctx = false)) := by
  refine ⟨?_, ?_, ?_, ?_⟩
  · intro c rest hfalse
    unfold evaluate at hfalse
    cases hc : evalNode pred c ctx with
    | mk b tr =>
      rw [hc] at hfalse
      simp only [] at hfalse
      subst hfalse
      rw [evalNode, evalChildren, hc, evalTrace, hc]
  · intro cs
    simp only [evaluate]
    rw [evalNode]
    exact evalChildren_and_true_iff
  · intro c rest htrue
    unfold evaluate at htrue
    cases hc : evalNode pred c ctx with
    | mk b tr =>
      rw [hc] at htrue
      simp only [] at htrue
      subst htrue
      rw [evalNode, evalChildren, hc, evalTrace, hc]
  · intro cs
    simp only [evaluate]
    rw [evalNode]
    exact evalChildren_or_false_iff

/-- The leaf predicate used by the evaluation witness: true exactly on
condstr `t`. -/
def wpred : LeafRecord → Unit → Bool := fun r _ => r.condstr == "t"

/-- Witness for C7: an AND group `[false, X]` returns false with only the
first child in the trace, and an OR group `[true, X]` returns true with
only the first child in the trace. -/
theorem evaluate_short_circuit_witness :
    evalNode wpred (.group .and [.leaf "f" none none none, .leaf "t" none none none]) ()
      = (false, [⟨"f", none, none, none⟩]) ∧
    evalNode wpred (.group .or [.leaf "t" none none none, .leaf "f" none none none]) ()
      = (true, [⟨"t", none, none, none⟩]) :=
  ⟨(evaluate_short_circuit wpred ()).1 _ _ (by rfl),
   (evaluate_short_circuit wpred ()).2.2.1 _ _ (by rfl)⟩

/-- One entry of the per-condition reference surface built by
`ConditionsWidget.render` (fields.py lines 162-175): the dict pushed onto
`conditions_in_group`. -/
structure RefEntry where
  condstr : String
  key_required : String
  keys_allowed : List String
  key_example : String
  operator_required : String
  operators : List String
  operand_example : String
  help_text : String
  description : String

/-- fields.py lines 162-175: the reference entry built for one condition
kind.  A compare kind is one that subclasses `CompareCondition`; in the
model that is `condition.compare = some _`. -/
def buildEntry (condstr : String) (condition : ConditionKind) : RefEntry :=
  { condstr := condstr
    key_required := if condition.key_required then "true" else "false"
    keys_allowed := condition.keys_allowed
    key_example := condition.key_example
    operator_required :=
      match condition.compare with
      | some _ => "true"
      | none => "false"
    operators :=
      match condition.compare with
      | some ci => ci.operators
      | none => []
    operand_example :=
      match condition.compare with
      | some ci => ci.operand_example
      | none => ""
    help_text := condition.help_text
    description := condition.full_description }

/-- One group of the reference surface: a group name and its condition
entries. -/
structure RefGroup where
  groupname : String
  conditions : List RefEntry

/-- fields.py lines 158-184: the `condition_groups` context value built by
`ConditionsWidget.render` — entries per group sorted by `condstr`, groups
sorted by `groupname` (Python `sorted` on strings is ascending
lexicographic; `List.mergeSort` with the same order models it). -/
def buildConditionGroups (defs : Registry) : List RefGroup :=
  (defs.map (fun g =>
      RefGroup.mk g.1
        ((g.2.map (fun p => buildEntry p.1 p.2)).mergeSort
          (fun a b => decide (a.condstr ≤ b.condstr))))).mergeSort
    (fun a b => decide (a.groupname ≤ b.groupname))

/-- A value held by a conditions field when it reaches the binding layer:
either a decoded `CondList` or any other (already JSON-encodable) value. -/
inductive FieldValue where
  | cond (c : CondList)
  | raw (j : Json)

/-- `BaseConditionField.get_db_prep_value` (fields.py lines 245-248): a
`CondList` is replaced by `value.encode()` before the inherited
serialization (`superPrep`) runs; any other value is handed over
unchanged. -/
def BaseConditionField.get_db_prep_value {α : Type} (superPrep : FieldValue → α)
    (value : FieldValue) : α :=
  match value with
  | .cond c => superPrep (.raw c.encode)
  | .raw j => superPrep (.raw j)

/-- `BaseConditionField.dumps_for_display` (fields.py lines 240-243):
same conversion in front of the inherited `dumps_for_display`. -/
def BaseConditionField.dumps_for_display {α : Type} (superDump : FieldValue → α)
    (value : FieldValue) : α :=
  match value with
  | .cond c => superDump (.raw c.encode)
  | .raw j => superDump (.raw j)

/-- `ConditionsWidget.render` (fields.py lines 153-156): the value is
encoded if it is a `CondList` before the textarea is rendered by the
inherited `JSONWidget.render`. -/
def ConditionsWidget.render_value {α : Type} (superRender : FieldValue → α)
    (value : FieldValue) : α :=
  match value with
  | .cond c => superRender (.raw c.encode)
  | .raw j => superRender (.raw j)

/-- Outcome of `ConditionsFormField.clean`: a raised `ValidationError`
or a returned (possibly absent) cleaned JSON value. -/
inductive CleanResult where
  | validationError (msg : String)
  | value (v : Option Json)

/-- `ConditionsFormField.clean` (fields.py lines 204-217), parameterized
by the inherited clean (`JSONFormField.clean`, which parses the raw input
as JSON — `forms.py` is not under `src/`) and by the decoder
(`CondList.decode` with the field's condition definitions).  A decode
failure becomes a `ValidationError` embedding the diagnostic; a `None`
cleaned value is returned as-is; otherwise the cleaned JSON is returned
unchanged. -/
def ConditionsFormField.clean
    (superClean : String → Except String (Option Json))
    (dec : Json → Except InvalidConditionError CondList)
    (value : String) : CleanResult :=
  match superClean value with
  | .error e => .validationError e
  | .ok none => .value none
  | .ok (some cleaned_json) =>
    match dec cleaned_json with
    | .error e => .validationError ("Invalid conditions JSON: " ++ e.msg)
    | .ok _ => .value (some cleaned_json)

/-- `TextJSONField.get_prep_value` (fields.py lines 112-117): `None` maps
to `""` when the field is non-null and blank and to `None` otherwise; any
other value is serialized by `json.dumps` with the field's encoder
settings (modelled by the `dumps` parameter). -/
def TextJSONField.get_prep_value (null blank : Bool) (dumps : Json → String)
    (value : Option Json) : Option String :=
  match value with
  | none => if !null && blank then some "" else none
  | some v => some (dumps v)

/-- A Python value passed to a lookup: a list, a tuple, or a JSON value
(Python dicts are the `Json.obj` case). -/
inductive PyValue where
  | pylist (xs : List Json)
  | pytuple (xs : List Json)
  | pyjson (j : Json)

/-- Result of `TextJSONField.get_prep_lookup`: the value passed through
unchanged, or a serialized string. -/
inductive LookupPrep where
  | unchanged (v : PyValue)
  | text (s : String)

/-- Python `s[1:-1]`: the string without its first and last character. -/
def stripEnds (s : String) : String := (s.drop 1).dropRight 1

/-- `TextJSONField.get_prep_lookup` (fields.py lines 119-133).  `prep`
models `self.get_prep_value` on a non-None value (json.dumps with the
field's encoder settings).  The raise for list/tuple arguments precedes
the dead fallback serialization in the source, so the fallback does not
appear here. -/
def TextJSONField.get_prep_lookup (prep : Json → String) (lookup_type : String)
    (value : PyValue) : Except String LookupPrep :=
  if lookup_type = "exact" ∨ lookup_type = "iexact" ∨ lookup_type = "in" ∨
      lookup_type = "isnull" then
    .ok (.unchanged value)
  else if lookup_type = "contains" ∨ lookup_type = "icontains" then
    match value with
    | .pylist _ =>
      .error ("Lookup type " ++ lookup_type ++ " not supported with argument of list")
    | .pytuple _ =>
      .error ("Lookup type " ++ lookup_type ++ " not supported with argument of tuple")
    | .pyjson (.obj fields) => .ok (.text (stripEnds (prep (.obj fields))))
    | .pyjson j => .ok (.text (prep j))
  else .error ("Lookup type " ++ lookup_type ++ " not supported")

/-- C3: in the reference surface rendered by `ConditionsWidget.render`,
for every registry content the condition groups appear sorted ascending
lexicographically by group name, and within each group the condition
entries appear sorted ascending lexicographically by condstr. -/
theorem render_reference_sorted (defs : Registry) :
    List.Pairwise (fun a b : RefGroup => a.groupname ≤ b.groupname)
      (buildConditionGroups defs) ∧
    ∀ g ∈ buildConditionGroups defs,
      List.Pairwise (fun a b : RefEntry => a.condstr ≤ b.condstr) g.conditions := by
  constructor
  · have h := @List.sorted_mergeSort RefGroup
      (fun a b => decide (a.groupname ≤ b.groupname))
      (fun a b c hab hbc => by
        simp only [decide_eq_true_eq] at *
        exact le_trans hab hbc)
      (fun a b => by
        simp only [Bool.or_eq_true, decide_eq_true_eq]
        exact le_total _ _)
      (defs.map (fun g =>
        RefGroup.mk g.1
          ((g.2.map (fun p => buildEntry p.1 p.2)).mergeSort
            (fun a b => decide (a.condstr ≤ b.condstr)))))
    exact h.imp (fun hab => by simpa using hab)
  · intro g hg
    rw [buildConditionGroups, List.mem_mergeSort] at hg
    obtain ⟨p, hp, rfl⟩ := List.mem_map.mp hg
    have h := @List.sorted_mergeSort RefEntry
      (fun a b => decide (a.condstr ≤ b.condstr))
      (fun a b c hab hbc => by
        simp only [decide_eq_true_eq] at *
        exact le_trans hab hbc)
      (fun a b => by
        simp only [Bool.or_eq_true, decide_eq_true_eq]
        exact le_total _ _)
      (p.2.map (fun q => buildEntry q.1 q.2))
    exact h.imp (fun hab => by simpa using hab)

/-- Witness for C3: sortedness of the groups rendered for `sampleReg`,
and of the entries of its `basic` group. -/
theorem render_reference_sorted_witness :
    List.Pairwise (fun a b : RefGroup => a.groupname ≤ b.groupname)
      (buildConditionGroups sampleReg) ∧
    List.Pairwise (fun a b : RefEntry => a.condstr ≤ b.condstr)
      (RefGroup.mk "basic"
        (([("always_true", (⟨false, [], "", "", "", none⟩ : ConditionKind))].map
            (fun p => buildEntry p.1 p.2)).mergeSort
          (fun a b => decide (a.condstr ≤ b.condstr)))).conditions :=
  ⟨(render_reference_sorted sampleReg).1,
   (render_reference_sorted sampleReg).2 _ (by
      rw [buildConditionGroups, List.mem_mergeSort]
      exact List.mem_map.mpr
        ⟨("basic", [("always_true", ⟨false, [], "", "", "", none⟩)]),
         List.mem_cons_self _ _, rfl⟩)⟩

/-- C4: whenever a `CondList` reaches the storage or display boundary
(`BaseConditionField.get_db_prep_value`, `BaseConditionField.dumps_for_display`
or `ConditionsWidget.render`), it is first converted to its
JSON-encodable form via `encode()` before the inherited serialization or
rendering runs; non-CondList values pass through to it unchanged, with no
encode call. -/
theorem boundary_encodes_condlist :
    ∀ {α : Type} (superFn : FieldValue → α) (c : CondList) (j : Json),
      BaseConditionField.get_db_prep_value superFn (.cond c) = superFn (.raw c.encode) ∧
      BaseConditionField.get_db_prep_value superFn (.raw j) = superFn (.raw j) ∧
      BaseConditionField.dumps_for_display superFn (.cond c) = superFn (.raw c.encode) ∧
      BaseConditionField.dumps_for_display superFn (.raw j) = superFn (.raw j) ∧
      ConditionsWidget.render_value superFn (.cond c) = superFn (.raw c.encode) ∧
      ConditionsWidget.render_value superFn (.raw j) = superFn (.raw j) :=
  fun _ _ _ => ⟨rfl, rfl, rfl, rfl, rfl, rfl⟩

/-- C5: for every condition kind in the definitions mapping, the
reference entry built by `ConditionsWidget.render` appears in the
rendered groups and exposes exactly condstr, key_required, keys_allowed,
key_example, whether the kind is a compare kind (`operator_required`),
its operators token list, operand_example, help_text and
full_description (under `description`); for a non-compare kind the
operators list is empty, operand_example is the empty string and
operator_required is `"false"`. -/
theorem render_entry_fields (defs : Registry) :
    (∀ gname group, (gname, group) ∈ defs → ∀ cs k, (cs, k) ∈ group →
      ∃ g ∈ buildConditionGroups defs, g.groupname = gname ∧
        buildEntry cs k ∈ g.conditions) ∧
    (∀ cs k, (buildEntry cs k).condstr = cs ∧
      (buildEntry cs k).key_required = (if k.key_required then "true" else "false") ∧
      (buildEntry cs k).keys_allowed = k.keys_allowed ∧
      (buildEntry cs k).key_example = k.key_example ∧
      (buildEntry cs k).help_text = k.help_text ∧
      (buildEntry cs k).description = k.full_description ∧
      (∀ ci, k.compare = some ci →
        (buildEntry cs k).operator_required = "true" ∧
        (buildEntry cs k).operators = ci.operators ∧
        (buildEntry cs k).operand_example = ci.operand_example) ∧
      (k.compare = none →
        (buildEntry cs k).operators = [] ∧
        (buildEntry cs k).operand_example = "" ∧
        (buildEntry cs k).operator_required = "false")) := by
  constructor
  · intro gname group hg cs k hk
    refine ⟨RefGroup.mk gname
      ((group.map (fun p => buildEntry p.1 p.2)).mergeSort
        (fun a b => decide (a.condstr ≤ b.condstr))), ?_, rfl, ?_⟩
    · rw [buildConditionGroups, List.mem_mergeSort]
      exact List.mem_map.mpr ⟨(gname, group), hg, rfl⟩
    · rw [List.mem_mergeSort]
      exact List.mem_map.mpr ⟨(cs, k), hk, rfl⟩
  · intro cs k
    refine ⟨rfl, rfl, rfl, rfl, rfl, rfl, ?_, ?_⟩
    · intro ci hci
      simp [buildEntry, hci]
    · intro hnc
      simp [buildEntry, hnc]

/-- Witness for C5: the compare kind `age` of `sampleReg` yields an entry
inside the rendered groups, and a concrete non-compare kind gets empty
operators, empty operand example and operator_required `"false"`. -/
theorem render_entry_fields_witness :
    (∃ g ∈ buildConditionGroups sampleReg, g.groupname = "basic" ∧
      buildEntry "always_true" ⟨false, [], "", "", "", none⟩ ∈ g.conditions) ∧
    (buildEntry "always_true" ⟨false, [], "", "", "", none⟩).operators = [] ∧
    (buildEntry "always_true" ⟨false, [], "", "", "", none⟩).operand_example = "" ∧
    (buildEntry "always_true" ⟨false, [], "", "", "", none⟩).operator_required = "false" :=
  ⟨(render_entry_fields sampleReg).1 "basic" [("always_true", ⟨false, [], "", "", "", none⟩)]
      (List.mem_cons_self _ _) "always_true" ⟨false, [], "", "", "", none⟩
      (List.mem_cons_self _ _),
   ((render_entry_fields sampleReg).2 "always_true" ⟨false, [], "", "", "", none⟩).2.2.2.2.2.2.2
      rfl⟩

/-- C2: `ConditionsFormField.clean` raises a form `ValidationError` if
and only if decode of the cleaned JSON raises `InvalidConditionError`
(the single domain error kind, whose diagnostic is embedded in the
message); when decode succeeds, clean returns the cleaned JSON
unchanged. -/
theorem clean_validation_iff
    (superClean : String → Except String (Option Json))
    (dec : Json → Except InvalidConditionError CondList)
    (value : String) (cleaned : Json)
    (hsuper : superClean value = .ok (some cleaned)) :
    (∀ e, dec cleaned = .error e →
      ConditionsFormField.clean superClean dec value =
        .validationError ("Invalid conditions JSON: " ++ e.msg)) ∧
    (∀ t, dec cleaned = .ok t →
      ConditionsFormField.clean superClean dec value = .value (some cleaned)) ∧
    ((∃ msg, ConditionsFormField.clean superClean dec value = .validationError msg) ↔
      (∃ e, dec cleaned = .error e)) := by
  refine ⟨?_, ?_, ?_⟩
  · intro e he
    simp only [ConditionsFormField.clean, hsuper, he]
  · intro t ht
    simp only [ConditionsFormField.clean, hsuper, ht]
  · constructor
    · rintro ⟨msg, hmsg⟩
      simp only [ConditionsFormField.clean, hsuper] at hmsg
      cases hd : dec cleaned with
      | error e => exact ⟨e, rfl⟩
      | ok t => rw [hd] at hmsg; simp at hmsg
    · rintro ⟨e, he⟩
      exact ⟨"Invalid conditions JSON: " ++ e.msg,
        by simp only [ConditionsFormField.clean, hsuper, he]⟩

/-- Witness for C2: a decodable cleaned value is returned unchanged, and
an undecodable one becomes a ValidationError embedding the diagnostic. -/
theorem clean_validation_iff_witness :
    ConditionsFormField.clean (fun _ => .ok (some sampleJson))
      (CondList.decode sampleReg) "raw" = .value (some sampleJson) ∧
    ConditionsFormField.clean (fun _ => .ok (some (.str "bad")))
      (CondList.decode sampleReg) "raw" =
      .validationError ("Invalid conditions JSON: " ++ "not a condition or group") :=
  ⟨(clean_validation_iff (fun _ => .ok (some sampleJson)) (CondList.decode sampleReg)
      "raw" sampleJson rfl).2.1 sampleTree (by rfl),
   (clean_validation_iff (fun _ => .ok (some (.str "bad"))) (CondList.decode sampleReg)
      "raw" (.str "bad") rfl).1 ⟨"not a condition or group"⟩ (by rfl)⟩

/-- C6: the inherited clean (JSON parsing) completes before decode is
invoked: for any input whose parse fails, the malformed-input error is
raised as-is and the outcome is identical for every decoder — the decoder
is never consulted, so no registry lookup or structural validation
happens. -/
theorem clean_malformed_before_decode
    (superClean : String → Except String (Option Json))
    (value : String) (e : String)
    (hsuper : superClean value = .error e) :
    ∀ dec dec',
      ConditionsFormField.clean superClean dec value = .validationError e ∧
      ConditionsFormField.clean superClean dec value =
        ConditionsFormField.clean superClean dec' value := by
  intro dec dec'
  constructor <;> simp only [ConditionsFormField.clean, hsuper]

/-- Witness for C6: a failing parse yields its own error both for the
real decoder and for a decoder that always succeeds. -/
theorem clean_malformed_before_decode_witness :
    ConditionsFormField.clean (fun _ => .error "not valid JSON")
      (CondList.decode sampleReg) "broken" = .validationError "not valid JSON" ∧
    ConditionsFormField.clean (fun _ => .error "not valid JSON")
      (CondList.decode sampleReg) "broken" =
      ConditionsFormField.clean (fun _ => .error "not valid JSON")
        (fun _ => .ok sampleTree) "broken" :=
  clean_malformed_before_decode (fun _ => .error "not valid JSON") "broken"
    "not valid JSON" rfl (CondList.decode sampleReg) (fun _ => .ok sampleTree)

/-- C8: when the inherited clean returns None (empty/absent input),
`clean` returns None without consulting the decoder: the outcome is the
same for every decoder and no error is raised. -/
theorem clean_none_skips_decode
    (superClean : String → Except String (Option Json)) (value : String)
    (hsuper : superClean value = .ok none) :
    ∀ dec, ConditionsFormField.clean superClean dec value = .value none := by
  intro dec
  simp only [ConditionsFormField.clean, hsuper]

/-- Witness for C8: an empty input cleans to None under the real
decoder. -/
theorem clean_none_skips_decode_witness :
    ConditionsFormField.clean (fun _ => .ok none) (CondList.decode sampleReg) ""
      = .value none :=
  clean_none_skips_decode (fun _ => .ok none) "" rfl (CondList.decode sampleReg)

/-- C9: `TextJSONField.get_prep_value` maps None to the empty string when
the field is non-null and blank, maps None to None otherwise, and maps
every other value to its JSON serialization (`json.dumps` with the
field's encoder settings, modelled by `dumps`). -/
theorem get_prep_value_spec (dumps : Json → String) :
    (∀ null blank,
      (null = false ∧ blank = true →
        TextJSONField.get_prep_value null blank dumps none = some "") ∧
      (¬(null = false ∧ blank = true) →
        TextJSONField.get_prep_value null blank dumps none = none)) ∧
    (∀ null blank v,
      TextJSONField.get_prep_value null blank dumps (some v) = some (dumps v)) := by
  constructor
  · intro null blank
    constructor
    · rintro ⟨rfl, rfl⟩
      rfl
    · intro h
      cases null with
      | false =>
        cases blank with
        | false => rfl
        | true => exact absurd ⟨rfl, rfl⟩ h
      | true => cases blank <;> rfl
  · intro null blank v
    rfl

/-- Witness for C9 at concrete flag values and a concrete value. -/
theorem get_prep_value_spec_witness :
    TextJSONField.get_prep_value false true (fun _ => "j") none = some "" ∧
    TextJSONField.get_prep_value true true (fun _ => "j") none = none ∧
    TextJSONField.get_prep_value false false (fun _ => "j") none = none ∧
    TextJSONField.get_prep_value true false (fun _ => "j") (some .null) = some "j" :=
  ⟨((get_prep_value_spec (fun _ => "j")).1 false true).1 ⟨rfl, rfl⟩,
   ((get_prep_value_spec (fun _ => "j")).1 true true).2 (by simp),
   ((get_prep_value_spec (fun _ => "j")).1 false false).2 (by simp),
   (get_prep_value_spec (fun _ => "j")).2 true false .null⟩

/-- C10: `TextJSONField.get_prep_lookup` returns the value unchanged for
exact, iexact, in and isnull; raises TypeError for any lookup type
outside exact/iexact/in/isnull/contains/icontains; and for
contains/icontains raises TypeError when the argument is a list or a
tuple (so the serialization fallback placed after that raise in the
source is unreachable). -/
theorem get_prep_lookup_spec (prep : Json → String) :
    (∀ lt value, lt ∈ (["exact", "iexact", "in", "isnull"] : List String) →
      TextJSONField.get_prep_lookup prep lt value = .ok (.unchanged value)) ∧
    (∀ lt value,
      lt ∉ (["exact", "iexact", "in", "isnull", "contains", "icontains"] : List String) →
      TextJSONField.get_prep_lookup prep lt value =
        .error ("Lookup type " ++ lt ++ " not supported")) ∧
    (∀ lt, (lt = "contains" ∨ lt = "icontains") → ∀ xs,
      TextJSONField.get_prep_lookup prep lt (.pylist xs) =
        .error ("Lookup type " ++ lt ++ " not supported with argument of list") ∧
      TextJSONField.get_prep_lookup prep lt (.pytuple xs) =
        .error ("Lookup type " ++ lt ++ " not supported with argument of tuple")) := by
  refine ⟨?_, ?_, ?_⟩
  · intro lt value hmem
    have h1 : lt = "exact" ∨ lt = "iexact" ∨ lt = "in" ∨ lt = "isnull" := by
      simpa using hmem
    unfold TextJSONField.get_prep_lookup
    rw [if_pos h1]
  · intro lt value hmem
    simp only [List.mem_cons, List.not_mem_nil, or_false, not_or] at hmem
    obtain ⟨h1, h2, h3, h4, h5, h6⟩ := hmem
    unfold TextJSONField.get_prep_lookup
    rw [if_neg (by tauto), if_neg (by tauto)]
  · intro lt hlt xs
    have h1 : ¬(lt = "exact" ∨ lt = "iexact" ∨ lt = "in" ∨ lt = "isnull") := by
      rcases hlt with rfl | rfl <;> simp
    constructor <;>
      (unfold TextJSONField.get_prep_lookup
       rw [if_neg h1, if_pos hlt])

/-- Witness for C10: a passthrough lookup, an unsupported lookup and a
contains lookup on a list. -/
theorem get_prep_lookup_spec_witness :
    TextJSONField.get_prep_lookup (fun _ => "x") "in" (.pyjson .null) =
      .ok (.unchanged (.pyjson .null)) ∧
    TextJSONField.get_prep_lookup (fun _ => "x") "regex" (.pyjson .null) =
      .error ("Lookup type " ++ "regex" ++ " not supported") ∧
    TextJSONField.get_prep_lookup (fun _ => "x") "contains" (.pylist []) =
      .error ("Lookup type " ++ "contains" ++ " not supported with argument of list") :=
  ⟨(get_prep_lookup_spec (fun _ => "x")).1 "in" (.pyjson .null) (by simp),
   (get_prep_lookup_spec (fun _ => "x")).2.1 "regex" (.pyjson .null) (by simp),
   ((get_prep_lookup_spec (fun _ => "x")).2.2 "contains" (Or.inl rfl) []).1⟩

end Conditions
